import Mathlib

/-!
Verification development for the Intraday Momentum OI Unwinding strategy
(`strategies/intraday_momentum_oi.py` and `src/oi_analyzer.py`).

Prices, open-interest values and volumes are modelled as exact rationals;
pandas timestamps are modelled as natural numbers (only their order matters);
a missing value (`None` / `NaN`) is modelled as `Option.none`.  Python dicts
holding per-key state are modelled as association lists with shadowing update.
-/

namespace OIStrat

/-- Option type of a contract row: `'CE'` or `'PE'` in the source. -/
inductive OptType where
  | CE
  | PE
deriving DecidableEq, Repr

/-- Trade direction produced by `determine_direction`: `'CALL'` or `'PUT'`. -/
inductive Dir where
  | CALL
  | PUT
deriving DecidableEq, Repr

/-- Conversion used throughout the strategy:
`option_type = 'CE' if self.daily_direction == 'CALL' else 'PE'`. -/
def optTypeOf : Dir → OptType
  | Dir.CALL => OptType.CE
  | Dir.PUT => OptType.PE

/-- Key of the per-option state dicts (`oi_history`, `vwap_running_totals`):
the source uses the string `f"{strike}_{option_type}_{expiry_date}"` or the
tuple `(strike, option_type, expiry)`. -/
structure Key where
  strike : ℚ
  optType : OptType
  expiry : Nat
deriving DecidableEq, Repr

/-- Lookup in an association list used to model a Python dict read. -/
def alookup {α β : Type} [DecidableEq α] : List (α × β) → α → Option β
  | [], _ => none
  | (k, v) :: rest, key => if k = key then some v else alookup rest key

/-- Python dict assignment `d[key] = v`, modelled by a shadowing cons:
any earlier binding of `key` is hidden from `alookup`. -/
def aupdate {α β : Type} [DecidableEq α] (l : List (α × β)) (key : α) (v : β) :
    List (α × β) :=
  (key, v) :: l

/-- One candle of the per-day options cache `daily_options_cache`, restricted
to the columns the VWAP computation reads (the strike / option type / expiry
columns are factored out into `Key`). -/
structure Bar where
  dt : Nat
  high : ℚ
  low : ℚ
  close : ℚ
  volume : ℚ
deriving DecidableEq, Repr

/-- Typical price `(high + low + close) / 3.0` of a bar. -/
def typicalPrice (b : Bar) : ℚ :=
  (b.high + b.low + b.close) / 3

/-- Volume with zero replaced, `option_history['volume'].replace(0, 1)`. -/
def volumeFilled (b : Bar) : ℚ :=
  if b.volume = 0 then 1 else b.volume

/-- Accumulated `(typical_price * volume_filled).sum()` over a list of bars. -/
def tpSum (l : List Bar) : ℚ :=
  (l.map fun b => typicalPrice b * volumeFilled b).sum

/-- Accumulated `volume_filled.sum()` over a list of bars. -/
def volSum (l : List Bar) : ℚ :=
  (l.map volumeFilled).sum

/-! ### OIAnalyzer (`src/oi_analyzer.py`) -/

/-- State of an `OIAnalyzer` instance: the cached working subset (only its
presence matters for the claims, its rows are kept abstract) and the rolling
`oi_history` dict. -/
structure AnalyzerState where
  working_df : Option (List Bar)
  oi_history : List (Key × ℚ)
deriving Repr

/-- Method `OIAnalyzer.clear_working_data`: sets `self.working_df = None`
(and touches nothing else). -/
def clear_working_data (st : AnalyzerState) : AnalyzerState :=
  { st with working_df := none }

/-- Method `OIAnalyzer.calculate_oi_change`, with the dataframe query for the
current OI at the requested timestamp abstracted into the `lookupOI` argument
(`None` when the masked frame is empty).  Returns the triple
`(current_oi, oi_change, oi_change_pct)` together with the updated
`oi_history`; on a missing row the history is returned untouched, otherwise
the entry for `key` is overwritten with `current_oi`. -/
def calculate_oi_change (hist : List (Key × ℚ)) (key : Key)
    (lookupOI : Option ℚ) : (Option ℚ × Option ℚ × Option ℚ) × List (Key × ℚ) :=
  match lookupOI with
  | none => ((none, none, none), hist)
  | some current_oi =>
      let pair :=
        match alookup hist key with
        | some prev_oi =>
            (current_oi - prev_oi,
             if prev_oi > 0 then (current_oi - prev_oi) / prev_oi * 100 else 0)
        | none => ((0 : ℚ), (0 : ℚ))
      ((some current_oi, some pair.1, some pair.2), aupdate hist key current_oi)

/-- Method `OIAnalyzer.is_unwinding`: `oi_change < 0`, with `None` mapped to
`False`. -/
def is_unwinding (oi_change : Option ℚ) : Bool :=
  match oi_change with
  | none => false
  | some c => decide (c < 0)

/-- Method `OIAnalyzer.determine_direction`: `'CALL'` when
`call_distance < put_distance`, else `'PUT'`; `None` inputs give `None`. -/
def determine_direction (call_distance put_distance : Option ℚ) : Option Dir :=
  match call_distance, put_distance with
  | some c, some p => some (if c < p then Dir.CALL else Dir.PUT)
  | _, _ => none

/-- Method `OIAnalyzer.get_nearest_strike`: for CALL the minimum of the
strikes at or above spot, for PUT the maximum of the strikes strictly below
spot; `None` when the respective side is empty. -/
def get_nearest_strike (spot : ℚ) (dir : Dir) (strikes : List ℚ) : Option ℚ :=
  match dir with
  | Dir.CALL => (strikes.filter fun s => spot ≤ s).min?
  | Dir.PUT => (strikes.filter fun s => s < spot).max?

/-- Row of the options frame handed to `calculate_max_oi_buildup`: strike,
option type and the `OI` column (`none` models `NaN`). -/
structure OptionRow where
  strike : ℚ
  optType : OptType
  oi : Option ℚ
deriving DecidableEq, Repr

/-- Reading of the `OI` column once `NaN` rows are dropped. -/
def oiVal (r : OptionRow) : ℚ :=
  r.oi.getD 0

/-- Result of pandas `idxmax` on the `OI` column: the first row attaining the
maximal OI (later rows replace the candidate only on a strictly larger OI). -/
def argmaxOI : List OptionRow → Option OptionRow
  | [] => none
  | r :: rs => some (rs.foldl (fun b a => if oiVal a > oiVal b then a else b) r)

/-- CALL rows with a present OI value, as filtered by
`calculate_max_oi_buildup` (`options_df[option_type == 'CE'].dropna(subset=['OI'])`). -/
def callsValid (rows : List OptionRow) : List OptionRow :=
  (rows.filter fun r => r.optType = OptType.CE).filter fun r => r.oi.isSome

/-- PUT rows with a present OI value, analogous to `callsValid`. -/
def putsValid (rows : List OptionRow) : List OptionRow :=
  (rows.filter fun r => r.optType = OptType.PE).filter fun r => r.oi.isSome

/-- Method `OIAnalyzer.calculate_max_oi_buildup`: splits the frame into CALL
and PUT rows, drops rows with missing OI, takes on each side the first row of
maximal OI, and returns
`(max_call_strike, max_put_strike, call_distance, put_distance)`;
every failure branch of the source returns `None`. -/
def calculate_max_oi_buildup (rows : List OptionRow) (spot : ℚ) :
    Option (ℚ × ℚ × ℚ × ℚ) :=
  if rows.isEmpty then none
  else
    let calls := rows.filter fun r => r.optType = OptType.CE
    let puts := rows.filter fun r => r.optType = OptType.PE
    if calls.isEmpty || puts.isEmpty then none
    else
      let calls_valid := calls.filter fun r => r.oi.isSome
      let puts_valid := puts.filter fun r => r.oi.isSome
      if calls_valid.isEmpty || puts_valid.isEmpty then none
      else
        match argmaxOI calls_valid, argmaxOI puts_valid with
        | some rc, some rp =>
            some (rc.strike, rp.strike, rc.strike - spot, spot - rp.strike)
        | _, _ => none

/-! ### VWAP (`IntradayMomentumOI.calculate_vwap_for_option` and the
incremental block of `check_entry_conditions`, lines 519-607) -/

/-- Running totals stored in `self.vwap_running_totals` for one key:
`{'tpv': float, 'volume': float, 'last_update': datetime}`. -/
structure VwapTotals where
  tpv : ℚ
  volume : ℚ
  last_update : Nat
deriving DecidableEq, Repr

/-- VWAP state of the strategy object: the running-totals dict together with
`self.vwap_cache_date`. -/
structure VwapState where
  totals : List (Key × VwapTotals)
  cache_date : Option Nat
deriving Repr

/-- Reading of the running totals at line 607:
`vwap = tpv / volume if volume > 0 else option_price`. -/
def vwapValue (t : VwapTotals) (option_price : ℚ) : ℚ :=
  if t.volume > 0 then t.tpv / t.volume else option_price

/-- Method `IntradayMomentumOI.calculate_vwap_for_option` restricted to one
key: `cache` holds the rows of `daily_options_cache` for that strike and
option type, the datetime mask keeps the bars at or before `now`; fewer than
two bars, or a non-positive total volume, give `None`. -/
def calculate_vwap_for_option (cache : List Bar) (now : Nat) : Option ℚ :=
  let option_history := cache.filter fun b => b.dt ≤ now
  if option_history.length < 2 then none
  else
    let total_tpv := tpSum option_history
    let total_volume := volSum option_history
    if total_volume > 0 then some (total_tpv / total_volume) else none

/-- Incremental VWAP block of `check_entry_conditions` (lines 523-607) for
one key.  The running totals are cleared when `vwap_cache_date` differs from
the current trade date; an uninitialised key is seeded from the full same-day
history (requiring at least two bars, and the daily cache to be present:
`cacheOk`); an initialised key only accumulates the bars strictly newer than
`last_update`.  Returns the VWAP value handed to the price comparison
(`None` exactly when the source returns early) and the updated state. -/
def entryVWAPStep (s : VwapState) (today : Nat) (key : Key) (cacheOk : Bool)
    (cache : List Bar) (now : Nat) (option_price : ℚ) : Option ℚ × VwapState :=
  let s := if s.cache_date ≠ some today then ⟨[], some today⟩ else s
  match alookup s.totals key with
  | none =>
      if !cacheOk then (none, s)
      else
        let option_history := cache.filter fun b => b.dt ≤ now
        if option_history.length < 2 then (none, s)
        else
          let t : VwapTotals := ⟨tpSum option_history, volSum option_history, now⟩
          (some (vwapValue t option_price), ⟨aupdate s.totals key t, s.cache_date⟩)
  | some t =>
      if t.last_update < now then
        let new_bars := cache.filter fun b => t.last_update < b.dt ∧ b.dt ≤ now
        if 0 < new_bars.length then
          let t2 : VwapTotals :=
            ⟨t.tpv + tpSum new_bars, t.volume + volSum new_bars, now⟩
          (some (vwapValue t2 option_price), ⟨aupdate s.totals key t2, s.cache_date⟩)
        else (some (vwapValue t option_price), s)
      else (some (vwapValue t option_price), s)

/-- Successive evaluations of the incremental VWAP block at a list of query
times, threading the strategy's VWAP state. -/
def runEntryVWAP (s : VwapState) (today : Nat) (key : Key) (cache : List Bar)
    (option_price : ℚ) : List Nat → List (Option ℚ) × VwapState
  | [] => ([], s)
  | t :: ts =>
      let step := entryVWAPStep s today key true cache t option_price
      let rest := runEntryVWAP step.2 today key cache option_price ts
      (step.1 :: rest.1, rest.2)

/-! ### Position management (`IntradayMomentumOI.manage_positions` and the
exit branch of `notify_order`) -/

/-- Strategy parameters relevant to the stop-loss state machine, with the
defaults of the `params` tuple. -/
structure Params where
  initial_stop_loss_pct : ℚ := 1/4
  profit_threshold : ℚ := 11/10
  trailing_stop_pct : ℚ := 1/10
  vwap_stop_pct : ℚ := 1/20
  oi_increase_stop_pct : ℚ := 1/10
deriving Repr

/-- Parameter values of the source's `params` tuple. -/
def defaultParams : Params := {}

/-- Fields of the `current_position` dict that the stop-loss state machine
reads or writes.  The four `*_triggered_price` fields model the key-presence
flags the source adds to the dict when a stop fires (`none` models key
absence). -/
structure PosInfo where
  entry_price : ℚ
  stop_loss : ℚ
  trailing_stop : Option ℚ
  highest_price : ℚ
  oi_at_entry : Option ℚ
  stop_loss_triggered_price : Option ℚ
  trailing_stop_triggered_price : Option ℚ
  vwap_stop_triggered_price : Option ℚ
  oi_stop_triggered_price : Option ℚ
deriving DecidableEq, Repr

/-- Position dict as built in the buy branch of `notify_order` (lines
165-178): stop loss below entry, trailing stop not yet active, highest price
seeded with the entry price, no stop triggered. -/
def mkPosition (p : Params) (entry_price : ℚ) (oiE : Option ℚ) : PosInfo :=
  { entry_price := entry_price
    stop_loss := entry_price * (1 - p.initial_stop_loss_pct)
    trailing_stop := none
    highest_price := entry_price
    oi_at_entry := oiE
    stop_loss_triggered_price := none
    trailing_stop_triggered_price := none
    vwap_stop_triggered_price := none
    oi_stop_triggered_price := none }

/-- Which stop closed the position during `manage_positions`. -/
inductive ExitKind where
  | stopLoss
  | vwapStop
  | oiStop
  | trailingStop
deriving DecidableEq, Repr

/-- VWAP stop condition of lines 675-677: a VWAP value is available and the
current price is strictly below `current_vwap * (1 - vwap_stop_pct)`. -/
def vwapStopHit (p : Params) (current_price : ℚ) (current_vwap : Option ℚ) :
    Bool :=
  match current_vwap with
  | none => false
  | some v => decide (current_price < v * (1 - p.vwap_stop_pct))

/-- OI stop condition of lines 696-698: current OI and the entry OI are both
available and the growth percentage exceeds `oi_increase_stop_pct * 100`. -/
def oiStopHit (p : Params) (oi_at_entry current_oi : Option ℚ) : Bool :=
  match current_oi, oi_at_entry with
  | some c, some e => decide ((c - e) / e * 100 > p.oi_increase_stop_pct * 100)
  | _, _ => false

/-- Highest-price update of line 708: `max(highest_price, current_price)`
written as the source's comparison. -/
def updHighest (pos : PosInfo) (current_price : ℚ) : ℚ :=
  if current_price > pos.highest_price then current_price
  else pos.highest_price

/-- Trailing-stop activation of lines 714-718: when no trailing stop exists
and the profit fraction reached `profit_threshold - 1`, it is seeded from the
(just updated) highest price. -/
def activateTrailing (p : Params) (pos : PosInfo) (current_price highest : ℚ) :
    Option ℚ :=
  if pos.trailing_stop = none ∧
      (current_price - pos.entry_price) / pos.entry_price ≥
        p.profit_threshold - 1 then
    some (highest * (1 - p.trailing_stop_pct))
  else pos.trailing_stop

/-- Tail of `manage_positions` (lines 707-740): highest-price update,
trailing-stop activation, upward-only trailing-stop update, and the
trailing-stop exit check. -/
def trailingPhase (p : Params) (pos : PosInfo) (current_price : ℚ) :
    PosInfo × Option ExitKind :=
  let highest := updHighest pos current_price
  match activateTrailing p pos current_price highest with
  | none =>
      ({ pos with highest_price := highest, trailing_stop := none }, none)
  | some ts =>
      let new_trailing_stop := highest * (1 - p.trailing_stop_pct)
      let ts2 := if new_trailing_stop > ts then new_trailing_stop else ts
      if current_price ≤ ts2 then
        ({ pos with highest_price := highest, trailing_stop := some ts2,
                    trailing_stop_triggered_price := some current_price },
         some ExitKind.trailingStop)
      else
        ({ pos with highest_price := highest, trailing_stop := some ts2 },
         none)

/-- Method `IntradayMomentumOI.manage_positions` for an open position at one
evaluation tick, with the two data queries abstracted: `current_vwap` is the
result of `calculate_vwap_for_option` and `oiLookup` is the dataframe read
inside `calculate_oi_change` (which is only invoked, with its `oi_history`
side effect, when the position is at a loss and no earlier stop fired).
Returns the updated position dict, the stop that fired (if any) and the
updated `oi_history`. -/
def manage_positions (p : Params) (pos : PosInfo) (current_price : ℚ)
    (current_vwap : Option ℚ) (hist : List (Key × ℚ)) (key : Key)
    (oiLookup : Option ℚ) : PosInfo × Option ExitKind × List (Key × ℚ) :=
  if current_price ≤ pos.stop_loss then
    ({ pos with stop_loss_triggered_price := some current_price },
     some ExitKind.stopLoss, hist)
  else if current_price - pos.entry_price < 0 ∧
      vwapStopHit p current_price current_vwap then
    ({ pos with vwap_stop_triggered_price := some current_price },
     some ExitKind.vwapStop, hist)
  else
    let oiStep :=
      if current_price - pos.entry_price < 0 then
        let r := calculate_oi_change hist key oiLookup
        (r.1.1, r.2)
      else (none, hist)
    if current_price - pos.entry_price < 0 ∧
        oiStopHit p pos.oi_at_entry oiStep.1 then
      ({ pos with oi_stop_triggered_price := some current_price },
       some ExitKind.oiStop, oiStep.2)
    else
      ((trailingPhase p pos current_price).1,
       (trailingPhase p pos current_price).2, oiStep.2)

/-- Exit price selection of `notify_order` (lines 196-211): the key-presence
chain over the `*_triggered_price` flags, falling back to the option's close
price at exit time. -/
def exitPriceFor (pos : PosInfo) (closePrice : ℚ) : ℚ :=
  if pos.stop_loss_triggered_price.isSome then pos.stop_loss
  else if pos.trailing_stop_triggered_price.isSome then
    pos.trailing_stop.getD closePrice
  else if pos.vwap_stop_triggered_price.isSome then
    pos.vwap_stop_triggered_price.getD closePrice
  else if pos.oi_stop_triggered_price.isSome then
    pos.oi_stop_triggered_price.getD closePrice
  else closePrice

/-- Trade record fields computed in the exit branch of `notify_order`
(lines 229-259). -/
structure Trade where
  entry_price : ℚ
  exit_price : ℚ
  pnl : ℚ
  pnl_pct : ℚ
deriving DecidableEq, Repr

/-- Trade record builder of `notify_order`:
`pnl = (exit - entry) * abs(size) * lot_size` and
`pnl_pct = (exit - entry) / entry * 100`. -/
def mkTrade (pos : PosInfo) (closePrice size lot_size : ℚ) : Trade :=
  let option_exit_price := exitPriceFor pos closePrice
  { entry_price := pos.entry_price
    exit_price := option_exit_price
    pnl := (option_exit_price - pos.entry_price) * |size| * lot_size
    pnl_pct := (option_exit_price - pos.entry_price) / pos.entry_price * 100 }

/-- States of the position dict reachable while the position stays open: the
dict as created by the buy branch of `notify_order`, evolved by evaluation
ticks of `manage_positions` on which no stop fired. -/
inductive Reachable (p : Params) (entry : ℚ) : PosInfo → Prop
  | init (oiE : Option ℚ) : Reachable p entry (mkPosition p entry oiE)
  | step {pos pos' : PosInfo} {cp : ℚ} {vw : Option ℚ} {hist : List (Key × ℚ)}
      {key : Key} {ol : Option ℚ} {hist' : List (Key × ℚ)}
      (h : Reachable p entry pos)
      (hstep : manage_positions p pos cp vw hist key ol = (pos', none, hist')) :
      Reachable p entry pos'

/-! ### Daily state and entry check (`IntradayMomentumOI.next` and
`IntradayMomentumOI.check_entry_conditions`) -/

/-- Per-day fields of the strategy object reset by the new-day branch of
`next` (lines 747-762). -/
structure DayState where
  current_date : Option Nat
  daily_direction : Option Dir
  daily_strike : Option ℚ
  daily_expiry : Option Nat
  daily_trade_taken : Bool
  pending_entry : Bool
  pending_exit : Bool
deriving DecidableEq, Repr

/-- New-day branch of `next` (lines 747-762): when the bar's calendar date
differs from `self.current_date` (or no date was seen yet), every per-day
field is reset; otherwise the state is untouched. -/
def nextDayReset (s : DayState) (d : Nat) : DayState :=
  if s.current_date = some d then s
  else
    { current_date := some d
      daily_direction := none
      daily_strike := none
      daily_expiry := none
      daily_trade_taken := false
      pending_entry := false
      pending_exit := false }

/-- Buy branch of `notify_order` (line 162): the completed entry order marks
`self.daily_trade_taken = True`. -/
def notifyBuyCompleted (s : DayState) : DayState :=
  { s with daily_trade_taken := true }

/-- Mutable strategy state threaded through `check_entry_conditions`: the
per-day fields, the Backtrader position flag, the analyzer's `oi_history`
and the VWAP running totals. -/
structure StratState where
  day : DayState
  hasPosition : Bool
  oi_history : List (Key × ℚ)
  vwap : VwapState
deriving Repr

/-- Data-dependent inputs of one `check_entry_conditions` call: the results
of the dataframe queries performed during the call. -/
structure EntryEnv where
  strikesFound : Bool
  selectedStrikes : List ℚ
  spot : ℚ
  oiLookup : Option ℚ
  optionClose : Option ℚ
  cacheOk : Bool
  cache : List Bar
deriving Repr

/-- Method `IntradayMomentumOI.check_entry_conditions` (lines 419-628): the
early gates (no daily analysis, trade already taken today, open position or
pending entry), the strike re-centering, the OI-unwinding check through
`calculate_oi_change` (whose rolling-baseline side effect is threaded), and
the price-above-VWAP check through the incremental VWAP block.  Returns the
entry price when a signal fires, together with the updated state. -/
def check_entry_conditions (st : StratState) (today now : Nat)
    (env : EntryEnv) : Option ℚ × StratState :=
  match st.day.daily_direction, st.day.daily_expiry with
  | some dir, some expiry =>
      if st.day.daily_trade_taken then (none, st)
      else if st.hasPosition || st.day.pending_entry then (none, st)
      else if !env.strikesFound || env.selectedStrikes.isEmpty then (none, st)
      else
        match get_nearest_strike env.spot dir env.selectedStrikes with
        | none => (none, st)
        | some updated_strike =>
            let st1 : StratState :=
              { st with day := { st.day with daily_strike := some updated_strike } }
            let key : Key := ⟨updated_strike, optTypeOf dir, expiry⟩
            let oiRes := calculate_oi_change st1.oi_history key env.oiLookup
            let st2 : StratState := { st1 with oi_history := oiRes.2 }
            match oiRes.1.1 with
            | none => (none, st2)
            | some _ =>
                if !is_unwinding oiRes.1.2.1 then (none, st2)
                else
                  match env.optionClose with
                  | none => (none, st2)
                  | some option_price =>
                      let vs := entryVWAPStep st2.vwap today key env.cacheOk
                        env.cache now option_price
                      let st3 : StratState := { st2 with vwap := vs.2 }
                      match vs.1 with
                      | none => (none, st3)
                      | some vwap =>
                          if option_price > vwap then (some option_price, st3)
                          else (none, st3)
  | _, _ => (none, st)

/-- Flag of `next` (lines 813-820): a buy order is placed exactly when
`check_entry_conditions` returned a price. -/
def placesBuyOrder (st : StratState) (today now : Nat) (env : EntryEnv) :
    Bool :=
  (check_entry_conditions st today now env).1.isSome

/-- One candle of the main loop restricted to the entry side: the new-day
check of `next` followed by `check_entry_conditions`. -/
def processCandle (st : StratState) (d now : Nat) (env : EntryEnv) :
    Option ℚ × StratState :=
  let st1 : StratState := { st with day := nextDayReset st.day d }
  check_entry_conditions st1 d now env

/-- Folding `processCandle` over a list of candles
`(date, time, environment)`, collecting each candle's entry signal. -/
def runCandles (st : StratState) :
    List (Nat × Nat × EntryEnv) → List (Option ℚ) × StratState
  | [] => ([], st)
  | c :: cs =>
      let step := processCandle st c.1 c.2.1 c.2.2
      let rest := runCandles step.2 cs
      (step.1 :: rest.1, rest.2)

/-! ### Helper lemmas about the stop-loss state machine -/

lemma trailingPhase_kind (p : Params) (pos : PosInfo) (cp : ℚ) :
    (trailingPhase p pos cp).2 = none ∨
    (trailingPhase p pos cp).2 = some ExitKind.trailingStop := by
  simp only [trailingPhase]
  split
  · exact Or.inl rfl
  · split_ifs <;> simp

lemma trailingPhase_frame (p : Params) (pos : PosInfo) (cp : ℚ) :
    (trailingPhase p pos cp).1.entry_price = pos.entry_price ∧
    (trailingPhase p pos cp).1.stop_loss = pos.stop_loss ∧
    (trailingPhase p pos cp).1.oi_at_entry = pos.oi_at_entry ∧
    (trailingPhase p pos cp).1.stop_loss_triggered_price
      = pos.stop_loss_triggered_price ∧
    (trailingPhase p pos cp).1.vwap_stop_triggered_price
      = pos.vwap_stop_triggered_price ∧
    (trailingPhase p pos cp).1.oi_stop_triggered_price
      = pos.oi_stop_triggered_price ∧
    (trailingPhase p pos cp).1.highest_price = updHighest pos cp := by
  simp only [trailingPhase]
  split <;> (try exact ⟨rfl, rfl, rfl, rfl, rfl, rfl, rfl⟩) <;>
    split_ifs <;> exact ⟨rfl, rfl, rfl, rfl, rfl, rfl, rfl⟩

lemma trailingPhase_none_ttp (p : Params) (pos : PosInfo) (cp : ℚ)
    (h : (trailingPhase p pos cp).2 = none) :
    (trailingPhase p pos cp).1.trailing_stop_triggered_price
      = pos.trailing_stop_triggered_price := by
  simp only [trailingPhase] at h ⊢
  split at h <;> (try rfl) <;> split_ifs at h ⊢ <;> simp_all

lemma le_updHighest (pos : PosInfo) (cp : ℚ) :
    pos.highest_price ≤ updHighest pos cp := by
  unfold updHighest
  split_ifs with h
  · exact le_of_lt h
  · exact le_refl _

lemma activateTrailing_cases (p : Params) (pos : PosInfo) (cp highest : ℚ)
    (ts : ℚ) (h : activateTrailing p pos cp highest = some ts) :
    ts = highest * (1 - p.trailing_stop_pct) ∨ pos.trailing_stop = some ts := by
  unfold activateTrailing at h
  split_ifs at h
  · exact Or.inl (Option.some_injective _ h).symm
  · exact Or.inr h

lemma activateTrailing_of_some (p : Params) (pos : PosInfo) (cp highest ts : ℚ)
    (h : pos.trailing_stop = some ts) :
    activateTrailing p pos cp highest = some ts := by
  unfold activateTrailing
  split_ifs with hc
  · exact absurd hc.1 (by simp [h])
  · exact h

lemma trailingPhase_mono (p : Params) (pos : PosInfo) (cp ts : ℚ)
    (h : pos.trailing_stop = some ts) :
    ∃ ts2, (trailingPhase p pos cp).1.trailing_stop = some ts2 ∧ ts ≤ ts2 := by
  have ha := activateTrailing_of_some p pos cp (updHighest pos cp) ts h
  simp only [trailingPhase, ha]
  set nts := updHighest pos cp * (1 - p.trailing_stop_pct) with hnts
  by_cases hgt : nts > ts
  · refine ⟨if nts > ts then nts else ts, ?_, ?_⟩ <;>
      (split_ifs <;> simp_all [le_of_lt])
  · refine ⟨if nts > ts then nts else ts, ?_, ?_⟩ <;>
      (split_ifs <;> simp_all)

lemma trailingPhase_inv (p : Params) (pos : PosInfo) (cp : ℚ)
    (hpct : p.trailing_stop_pct ≤ 1)
    (hinv : ∀ ts, pos.trailing_stop = some ts →
      ts = pos.highest_price * (1 - p.trailing_stop_pct)) :
    ∀ ts2, (trailingPhase p pos cp).1.trailing_stop = some ts2 →
      ts2 = (trailingPhase p pos cp).1.highest_price
        * (1 - p.trailing_stop_pct) := by
  intro ts2 hts2
  have hhigh := (trailingPhase_frame p pos cp).2.2.2.2.2.2
  rw [hhigh]
  revert hts2
  simp only [trailingPhase]
  cases ha : activateTrailing p pos cp (updHighest pos cp) with
  | none => intro hts2; simp at hts2
  | some ts =>
      by_cases hgt : updHighest pos cp * (1 - p.trailing_stop_pct) > ts
      · simp only [if_pos hgt]
        split_ifs <;> intro hts2 <;> simpa using hts2.symm
      · have hts : ts = updHighest pos cp * (1 - p.trailing_stop_pct) := by
          rcases activateTrailing_cases p pos cp (updHighest pos cp) ts ha with
            hc | hc
          · exact hc
          · have h1 := hinv ts hc
            have h2 : pos.highest_price * (1 - p.trailing_stop_pct)
                ≤ updHighest pos cp * (1 - p.trailing_stop_pct) :=
              mul_le_mul_of_nonneg_right (le_updHighest pos cp)
                (by linarith)
            have h3 : ¬ ts < updHighest pos cp * (1 - p.trailing_stop_pct) :=
              hgt
            linarith [h1, h2]
        simp only [if_neg hgt]
        split_ifs <;> intro hts2 <;>
          (have h4 : ts = ts2 := by simpa using hts2
           rw [← h4]
           exact hts)

lemma mp_none_char {p : Params} {pos : PosInfo} {cp : ℚ} {vw : Option ℚ}
    {hist : List (Key × ℚ)} {key : Key} {ol : Option ℚ}
    (h : (manage_positions p pos cp vw hist key ol).2.1 = none) :
    (manage_positions p pos cp vw hist key ol).1 = (trailingPhase p pos cp).1 ∧
    (trailingPhase p pos cp).2 = none := by
  simp only [manage_positions] at h ⊢
  split_ifs at h ⊢ <;> simp_all

lemma mp_vwap_char {p : Params} {pos : PosInfo} {cp : ℚ} {vw : Option ℚ}
    {hist : List (Key × ℚ)} {key : Key} {ol : Option ℚ}
    (h : (manage_positions p pos cp vw hist key ol).2.1
      = some ExitKind.vwapStop) :
    (manage_positions p pos cp vw hist key ol).1
      = { pos with vwap_stop_triggered_price := some cp } := by
  have hk := trailingPhase_kind p pos cp
  simp only [manage_positions] at h ⊢
  split_ifs at h ⊢ <;> rcases hk with hk | hk <;> simp_all

lemma mp_oi_char {p : Params} {pos : PosInfo} {cp : ℚ} {vw : Option ℚ}
    {hist : List (Key × ℚ)} {key : Key} {ol : Option ℚ}
    (h : (manage_positions p pos cp vw hist key ol).2.1
      = some ExitKind.oiStop) :
    (manage_positions p pos cp vw hist key ol).1
      = { pos with oi_stop_triggered_price := some cp } := by
  have hk := trailingPhase_kind p pos cp
  simp only [manage_positions] at h ⊢
  split_ifs at h ⊢ <;> rcases hk with hk | hk <;> simp_all

lemma mp_stopLoss_of {p : Params} {pos : PosInfo} {cp : ℚ} {vw : Option ℚ}
    {hist : List (Key × ℚ)} {key : Key} {ol : Option ℚ}
    (h : cp ≤ pos.stop_loss) :
    manage_positions p pos cp vw hist key ol
      = ({ pos with stop_loss_triggered_price := some cp },
         some ExitKind.stopLoss, hist) := by
  simp only [manage_positions, if_pos h]

lemma mp_trailing_char {p : Params} {pos : PosInfo} {cp : ℚ} {vw : Option ℚ}
    {hist : List (Key × ℚ)} {key : Key} {ol : Option ℚ}
    (h : (manage_positions p pos cp vw hist key ol).2.1
      = some ExitKind.trailingStop) :
    (manage_positions p pos cp vw hist key ol).1 = (trailingPhase p pos cp).1 ∧
    (trailingPhase p pos cp).2 = some ExitKind.trailingStop := by
  simp only [manage_positions] at h ⊢
  split_ifs at h ⊢ <;> simp_all

lemma trailingPhase_exit (p : Params) (pos : PosInfo) (cp : ℚ)
    (h : (trailingPhase p pos cp).2 = some ExitKind.trailingStop) :
    (trailingPhase p pos cp).1.trailing_stop_triggered_price = some cp ∧
    ∃ ts2, (trailingPhase p pos cp).1.trailing_stop = some ts2 ∧ cp ≤ ts2 := by
  cases ha : activateTrailing p pos cp (updHighest pos cp) with
  | none => simp only [trailingPhase, ha] at h; simp at h
  | some ts =>
      simp only [trailingPhase, ha] at h ⊢
      split_ifs at h ⊢ <;> exact ⟨rfl, _, rfl, by assumption⟩

lemma reachable_frame {p : Params} {entry : ℚ} {pos : PosInfo}
    (h : Reachable p entry pos) :
    pos.entry_price = entry ∧
    pos.stop_loss = entry * (1 - p.initial_stop_loss_pct) ∧
    pos.stop_loss_triggered_price = none ∧
    pos.trailing_stop_triggered_price = none ∧
    pos.vwap_stop_triggered_price = none ∧
    pos.oi_stop_triggered_price = none := by
  induction h with
  | init oiE => exact ⟨rfl, rfl, rfl, rfl, rfl, rfl⟩
  | @step pos pos' cp vw hist key ol hist' h hstep ih =>
      have h2 : (manage_positions p pos cp vw hist key ol).2.1 = none := by
        rw [hstep]
      have h1 : (manage_positions p pos cp vw hist key ol).1 = pos' := by
        rw [hstep]
      obtain ⟨heq, hnone⟩ := mp_none_char h2
      have hf := trailingPhase_frame p pos cp
      have http := trailingPhase_none_ttp p pos cp hnone
      rw [h1] at heq
      rw [heq]
      exact ⟨hf.1.trans ih.1, hf.2.1.trans ih.2.1, hf.2.2.2.1.trans ih.2.2.1,
        http.trans ih.2.2.2.1, hf.2.2.2.2.1.trans ih.2.2.2.2.1,
        hf.2.2.2.2.2.1.trans ih.2.2.2.2.2⟩

lemma reachable_trailing {p : Params} {entry : ℚ} {pos : PosInfo}
    (hpct : p.trailing_stop_pct ≤ 1) (h : Reachable p entry pos) :
    ∀ ts, pos.trailing_stop = some ts →
      ts = pos.highest_price * (1 - p.trailing_stop_pct) := by
  induction h with
  | init oiE => intro ts hts; simp [mkPosition] at hts
  | @step pos pos' cp vw hist key ol hist' h hstep ih =>
      have h2 : (manage_positions p pos cp vw hist key ol).2.1 = none := by
        rw [hstep]
      have h1 : (manage_positions p pos cp vw hist key ol).1 = pos' := by
        rw [hstep]
      obtain ⟨heq, -⟩ := mp_none_char h2
      rw [h1] at heq
      rw [heq]
      exact trailingPhase_inv p pos cp hpct ih

lemma mp_stopLoss_char {p : Params} {pos : PosInfo} {cp : ℚ} {vw : Option ℚ}
    {hist : List (Key × ℚ)} {key : Key} {ol : Option ℚ}
    (h : (manage_positions p pos cp vw hist key ol).2.1
      = some ExitKind.stopLoss) :
    (manage_positions p pos cp vw hist key ol).1
      = { pos with stop_loss_triggered_price := some cp } := by
  have hk := trailingPhase_kind p pos cp
  simp only [manage_positions] at h ⊢
  split_ifs at h ⊢ <;> rcases hk with hk | hk <;> simp_all

/-- Concrete key used to instantiate witnesses and counterexamples. -/
def exKey : Key := ⟨100, OptType.CE, 0⟩

/-! ### Claim C1 — OI-increase stop exit price -/

/-- C1 counterexample: at the spec's own example (`entry_price = 50`,
`current_price = 44`, `oi_at_entry = 100`, `current_oi = 123`, so
`oi_increase_pct = 23` against a threshold of `10`), the OI-increase stop
fires, but the Trade's exit price is the observed price `44`, not the
interpolated value `50 + (44 - 50) * (10 / 23) = 1090/23 ≈ 47.39` required
by the claim. -/
theorem oi_stop_interpolation_counterexample :
    (manage_positions defaultParams (mkPosition defaultParams 50 (some 100))
        44 none [] exKey (some 123)).2.1 = some ExitKind.oiStop ∧
    ((123 : ℚ) - 100) / 100 * 100 > defaultParams.oi_increase_stop_pct * 100 ∧
    (mkTrade (manage_positions defaultParams
        (mkPosition defaultParams 50 (some 100)) 44 none [] exKey
        (some 123)).1 44 1 75).exit_price = 44 ∧
    (50 : ℚ) + (44 - 50) * (defaultParams.oi_increase_stop_pct * 100
        / (((123 : ℚ) - 100) / 100 * 100)) = 1090 / 23 ∧
    (44 : ℚ) ≠ 1090 / 23 := by
  refine ⟨?_, by norm_num [defaultParams], ?_, by norm_num [defaultParams],
    by norm_num⟩
  · norm_num [manage_positions, mkPosition, defaultParams, vwapStopHit,
      oiStopHit, calculate_oi_change, alookup, aupdate]
  · norm_num [manage_positions, mkPosition, defaultParams, vwapStopHit,
      oiStopHit, calculate_oi_change, alookup, aupdate, mkTrade, exitPriceFor]

/-- C1 (amended): whenever the OI-increase stop fires on an open position,
the Trade's exit price equals the observed current price at check time — in
every case, not only when `oi_increase_pct ≤ 0` — because the source stores
`current_price` in `oi_stop_triggered_price` and `notify_order` replays that
stored value. -/
theorem oi_stop_exit_at_observed_price (p : Params) (entry : ℚ)
    (pos : PosInfo) (cp : ℚ) (vw : Option ℚ) (hist : List (Key × ℚ))
    (key : Key) (ol : Option ℚ) (c s l : ℚ)
    (hre : Reachable p entry pos)
    (hfire : (manage_positions p pos cp vw hist key ol).2.1
      = some ExitKind.oiStop) :
    (mkTrade (manage_positions p pos cp vw hist key ol).1 c s l).exit_price
      = cp := by
  obtain ⟨-, -, h3, h4, h5, -⟩ := reachable_frame hre
  rw [mp_oi_char hfire]
  simp [mkTrade, exitPriceFor, h3, h4, h5]

/-- C1 witness: the amended theorem applied at the counterexample's input. -/
theorem oi_stop_exit_at_observed_price_witness :
    (mkTrade (manage_positions defaultParams
        (mkPosition defaultParams 50 (some 100)) 44 none [] exKey
        (some 123)).1 44 1 75).exit_price = 44 :=
  oi_stop_exit_at_observed_price defaultParams 50
    (mkPosition defaultParams 50 (some 100)) 44 none [] exKey (some 123)
    44 1 75 (Reachable.init (some 100))
    (by norm_num [manage_positions, mkPosition, defaultParams, vwapStopHit,
      oiStopHit, calculate_oi_change, alookup, aupdate])

/-! ### Claim C2 — VWAP stop exit price -/

/-- C2 counterexample: with `entry_price = 100`, `current_price = 80` and
`current_vwap = 90` (threshold `90 * 0.95 = 85.5`), the VWAP stop fires, but
the Trade's exit price is the observed price `80`, not the threshold
`85.5` the claim requires. -/
theorem vwap_stop_threshold_counterexample :
    (manage_positions defaultParams (mkPosition defaultParams 100 none) 80
        (some 90) [] exKey none).2.1 = some ExitKind.vwapStop ∧
    (80 : ℚ) < 90 * (1 - defaultParams.vwap_stop_pct) ∧
    (mkTrade (manage_positions defaultParams (mkPosition defaultParams 100
        none) 80 (some 90) [] exKey none).1 80 1 75).exit_price = 80 ∧
    (80 : ℚ) ≠ 90 * (1 - defaultParams.vwap_stop_pct) := by
  refine ⟨?_, by norm_num [defaultParams], ?_, by norm_num [defaultParams]⟩
  · norm_num [manage_positions, mkPosition, defaultParams, vwapStopHit]
  · norm_num [manage_positions, mkPosition, defaultParams, vwapStopHit,
      mkTrade, exitPriceFor]

/-- C2 (amended): whenever the VWAP stop fires on an open position, the
Trade's exit price equals the observed current price at check time (the
source stores `current_price` in `vwap_stop_triggered_price` and
`notify_order` replays that stored value), not the threshold
`current_vwap * (1 - vwap_stop_pct)`. -/
theorem vwap_stop_exit_at_observed_price (p : Params) (entry : ℚ)
    (pos : PosInfo) (cp : ℚ) (vw : Option ℚ) (hist : List (Key × ℚ))
    (key : Key) (ol : Option ℚ) (c s l : ℚ)
    (hre : Reachable p entry pos)
    (hfire : (manage_positions p pos cp vw hist key ol).2.1
      = some ExitKind.vwapStop) :
    (mkTrade (manage_positions p pos cp vw hist key ol).1 c s l).exit_price
      = cp := by
  obtain ⟨-, -, h3, h4, -, h6⟩ := reachable_frame hre
  rw [mp_vwap_char hfire]
  simp [mkTrade, exitPriceFor, h3, h4, h6]

/-- C2 witness: the amended theorem applied at the counterexample's input. -/
theorem vwap_stop_exit_at_observed_price_witness :
    (mkTrade (manage_positions defaultParams
        (mkPosition defaultParams 100 none) 80 (some 90) [] exKey
        none).1 80 1 75).exit_price = 80 :=
  vwap_stop_exit_at_observed_price defaultParams 100
    (mkPosition defaultParams 100 none) 80 (some 90) [] exKey none
    80 1 75 (Reachable.init none)
    (by norm_num [manage_positions, mkPosition, defaultParams, vwapStopHit])

/-! ### Claim C3 — initial stop loss strict exit -/

/-- C3: on any reachable open position, a tick with
`current_price ≤ entry_price * (1 - initial_stop_loss_pct)` fires the
initial stop loss, the Trade's exit price is exactly
`entry_price * (1 - initial_stop_loss_pct)` (not the observed price), and
for the default `initial_stop_loss_pct = 0.25` the Trade's `pnl_pct` is
exactly `-25`. -/
theorem stop_loss_strict_exit (p : Params) (entry : ℚ) (pos : PosInfo)
    (cp : ℚ) (vw : Option ℚ) (hist : List (Key × ℚ)) (key : Key)
    (ol : Option ℚ) (c s l : ℚ)
    (hre : Reachable p entry pos)
    (hcp : cp ≤ entry * (1 - p.initial_stop_loss_pct))
    (hentry : entry ≠ 0) :
    (manage_positions p pos cp vw hist key ol).2.1 = some ExitKind.stopLoss ∧
    (mkTrade (manage_positions p pos cp vw hist key ol).1 c s l).exit_price
      = entry * (1 - p.initial_stop_loss_pct) ∧
    (p.initial_stop_loss_pct = 1 / 4 →
      (mkTrade (manage_positions p pos cp vw hist key ol).1 c s l).pnl_pct
        = -25) := by
  obtain ⟨he, hsl, -, -, -, -⟩ := reachable_frame hre
  have hcp2 : cp ≤ pos.stop_loss := by rw [hsl]; exact hcp
  rw [mp_stopLoss_of hcp2]
  refine ⟨rfl, ?_, ?_⟩
  · simp [mkTrade, exitPriceFor, hsl]
  · intro hq
    simp [mkTrade, exitPriceFor, hsl, he, hq]
    field_simp
    ring

/-- C3 witness: entry at 100, price gapping to 70 (below the stop 75); the
recorded exit price is 75 and the P&L percentage exactly -25. -/
theorem stop_loss_strict_exit_witness :
    (manage_positions defaultParams (mkPosition defaultParams 100 none) 70
        none [] exKey none).2.1 = some ExitKind.stopLoss ∧
    (mkTrade (manage_positions defaultParams (mkPosition defaultParams 100
        none) 70 none [] exKey none).1 71 1 75).exit_price
      = 100 * (1 - defaultParams.initial_stop_loss_pct) ∧
    (defaultParams.initial_stop_loss_pct = 1 / 4 →
      (mkTrade (manage_positions defaultParams (mkPosition defaultParams 100
          none) 70 none [] exKey none).1 71 1 75).pnl_pct = -25) :=
  stop_loss_strict_exit defaultParams 100 (mkPosition defaultParams 100 none)
    70 none [] exKey none 71 1 75 (Reachable.init none)
    (by norm_num [defaultParams]) (by norm_num)

/-! ### Claim C4 — trailing stop ratchet and strict exit -/

/-- C4: on any reachable open position (with `trailing_stop_pct ≤ 1`), an
active trailing stop always equals `highest_price * (1 - trailing_stop_pct)`,
an evaluation tick never decreases it (and never deactivates it), and when
the trailing stop fires the Trade's exit price is exactly the trailing stop
value `peak * (1 - trailing_stop_pct)` — with `current_price` at or below
it — regardless of how far the observed price fell. -/
theorem trailing_stop_ratchet_strict_exit (p : Params) (entry : ℚ)
    (pos : PosInfo) (cp : ℚ) (vw : Option ℚ) (hist : List (Key × ℚ))
    (key : Key) (ol : Option ℚ) (c s l : ℚ)
    (hre : Reachable p entry pos) (hpct : p.trailing_stop_pct ≤ 1) :
    (∀ ts, pos.trailing_stop = some ts →
      ts = pos.highest_price * (1 - p.trailing_stop_pct)) ∧
    (∀ ts, pos.trailing_stop = some ts →
      ∃ ts2, (manage_positions p pos cp vw hist key ol).1.trailing_stop
        = some ts2 ∧ ts ≤ ts2) ∧
    ((manage_positions p pos cp vw hist key ol).2.1
        = some ExitKind.trailingStop →
      (mkTrade (manage_positions p pos cp vw hist key ol).1 c s l).exit_price
        = (manage_positions p pos cp vw hist key ol).1.highest_price
          * (1 - p.trailing_stop_pct) ∧
      cp ≤ (manage_positions p pos cp vw hist key ol).1.highest_price
          * (1 - p.trailing_stop_pct)) := by
  obtain ⟨-, -, hslt, http, hvtp, hotp⟩ := reachable_frame hre
  have hinv := reachable_trailing hpct hre
  refine ⟨hinv, ?_, ?_⟩
  · intro ts hts
    rcases hk : (manage_positions p pos cp vw hist key ol).2.1 with - | ek
    · obtain ⟨heq, -⟩ := mp_none_char hk
      rw [heq]
      exact trailingPhase_mono p pos cp ts hts
    · cases ek with
      | stopLoss => rw [mp_stopLoss_char hk]; exact ⟨ts, hts, le_refl ts⟩
      | vwapStop => rw [mp_vwap_char hk]; exact ⟨ts, hts, le_refl ts⟩
      | oiStop => rw [mp_oi_char hk]; exact ⟨ts, hts, le_refl ts⟩
      | trailingStop =>
          obtain ⟨heq, -⟩ := mp_trailing_char hk
          rw [heq]
          exact trailingPhase_mono p pos cp ts hts
  · intro hk
    obtain ⟨heq, hexit⟩ := mp_trailing_char hk
    obtain ⟨http2, ts2, hts2, hcpts⟩ := trailingPhase_exit p pos cp hexit
    have hfr := trailingPhase_frame p pos cp
    have hts2v := trailingPhase_inv p pos cp hpct hinv ts2 hts2
    rw [heq]
    constructor
    · simp [mkTrade, exitPriceFor, hfr.2.2.2.1, hslt, http2, hts2, ← hts2v]
    · rw [← hts2v]
      exact hcpts

/-- Position reached after one profitable tick at price 120 from an entry at
100 with the default parameters: the trailing stop is active at
`120 * 0.9 = 108`. -/
def reachableEx : PosInfo :=
  { mkPosition defaultParams 100 none with
      highest_price := 120
      trailing_stop := some 108 }

/-- C4 witness: from `reachableEx` a tick at price 90 fires the trailing
stop, exiting at exactly `120 * (1 - 0.10) = 108`. -/
theorem trailing_stop_ratchet_strict_exit_witness :
    (mkTrade (manage_positions defaultParams reachableEx 90 none [] exKey
        none).1 89 1 75).exit_price
      = (manage_positions defaultParams reachableEx 90 none [] exKey
          none).1.highest_price * (1 - defaultParams.trailing_stop_pct) ∧
    (90 : ℚ) ≤ (manage_positions defaultParams reachableEx 90 none [] exKey
          none).1.highest_price * (1 - defaultParams.trailing_stop_pct) :=
  (trailing_stop_ratchet_strict_exit defaultParams 100 reachableEx 90 none
    [] exKey none 89 1 75
    (@Reachable.step defaultParams 100 (mkPosition defaultParams 100 none)
      reachableEx 120 none [] exKey none [] (Reachable.init none)
      (by norm_num [manage_positions, trailingPhase, updHighest,
        activateTrailing, mkPosition, defaultParams, vwapStopHit, oiStopHit,
        reachableEx]))
    (by norm_num [defaultParams])).2.2
    (by norm_num [manage_positions, trailingPhase, updHighest,
      activateTrailing, mkPosition, defaultParams, vwapStopHit, oiStopHit,
      calculate_oi_change, reachableEx])

/-! ### Claim C6 — one trade per day cap -/

lemma check_entry_taken {st : StratState} {today now : Nat} {env : EntryEnv}
    (h : st.day.daily_trade_taken = true) :
    check_entry_conditions st today now env = (none, st) := by
  unfold check_entry_conditions
  rcases hd : st.day.daily_direction with - | dir <;>
    rcases he : st.day.daily_expiry with - | expiry <;>
    simp [hd, he, h]

lemma runCandles_taken (d : Nat) :
    ∀ (candles : List (Nat × Nat × EntryEnv)) (st : StratState),
      st.day.daily_trade_taken = true → st.day.current_date = some d →
      (∀ c ∈ candles, c.1 = d) →
      (runCandles st candles).1 = candles.map (fun _ => none) ∧
      (runCandles st candles).2 = st := by
  intro candles
  induction candles with
  | nil => intro st h1 h2 h3; exact ⟨rfl, rfl⟩
  | cons c cs ih =>
      intro st h1 h2 h3
      have hcd : c.1 = d := h3 c (List.mem_cons_self c cs)
      have hreset : nextDayReset st.day c.1 = st.day := by
        unfold nextDayReset
        rw [hcd, if_pos h2]
      have hstep : processCandle st c.1 c.2.1 c.2.2 = (none, st) := by
        unfold processCandle
        rw [hreset]
        exact check_entry_taken h1
      have ihcs := ih st h1 h2 (fun x hx => h3 x (List.mem_cons_of_mem c hx))
      simp [runCandles, hstep, ihcs.1, ihcs.2]

/-- C6: once `daily_trade_taken` is set (the configured cap of one trade per
day is reached), every further entry check of the same calendar date returns
no signal and leaves the whole strategy state untouched, whatever the OI and
VWAP conditions are; and the new-day branch of `next` clears the flag
exactly when the calendar date changes. -/
theorem one_trade_per_day_cap (st : StratState) (d : Nat)
    (candles : List (Nat × Nat × EntryEnv))
    (hflag : st.day.daily_trade_taken = true)
    (hdate : st.day.current_date = some d)
    (hsame : ∀ c ∈ candles, c.1 = d) :
    (runCandles st candles).1 = candles.map (fun _ => none) ∧
    (runCandles st candles).2 = st ∧
    (∀ (s : DayState) (e : Nat),
      (nextDayReset s e).daily_trade_taken
        = if s.current_date = some e then s.daily_trade_taken else false) := by
  obtain ⟨h1, h2⟩ := runCandles_taken d candles st hflag hdate hsame
  refine ⟨h1, h2, ?_⟩
  intro s e
  unfold nextDayReset
  split_ifs <;> rfl

/-- Strategy state after the day's single trade: favorable direction and
expiry are set, no open position, and the daily flag is set. -/
def stateAfterTrade : StratState :=
  { day := { current_date := some 3
             daily_direction := some Dir.CALL
             daily_strike := some 100
             daily_expiry := some 0
             daily_trade_taken := true
             pending_entry := false
             pending_exit := false }
    hasPosition := false
    oi_history := [(exKey, 100)]
    vwap := ⟨[], some 3⟩ }

/-- Entry environment with fully favorable conditions: strikes available, OI
unwinding (90 against a baseline of 100) and a price above any VWAP. -/
def favorableEnv : EntryEnv :=
  { strikesFound := true
    selectedStrikes := [100]
    spot := 100
    oiLookup := some 90
    optionClose := some 50
    cacheOk := true
    cache := [⟨1, 10, 8, 9, 5⟩, ⟨2, 11, 9, 10, 5⟩] }

/-- C6 witness: with the flag set, two favorable same-day candles both yield
no signal, the state is unchanged, and the flag survives a same-date
new-day check. -/
theorem one_trade_per_day_cap_witness :
    (runCandles stateAfterTrade
      [(3, 5, favorableEnv), (3, 6, favorableEnv)]).1 = [none, none] ∧
    (runCandles stateAfterTrade
      [(3, 5, favorableEnv), (3, 6, favorableEnv)]).2 = stateAfterTrade ∧
    (nextDayReset stateAfterTrade.day 3).daily_trade_taken
      = if stateAfterTrade.day.current_date = some 3 then
          stateAfterTrade.day.daily_trade_taken else false := by
  have h := one_trade_per_day_cap stateAfterTrade 3
    [(3, 5, favorableEnv), (3, 6, favorableEnv)] rfl rfl
    (by
      intro c hc
      simp only [List.mem_cons, List.not_mem_nil, or_false] at hc
      rcases hc with hc | hc <;> rw [hc])
  exact ⟨h.1, h.2.1, h.2.2 stateAfterTrade.day 3⟩

/-! ### Claim C7 — direction selection -/

lemma foldl_max_oi (rs : List OptionRow) (b : OptionRow) :
    (rs.foldl (fun b a => if oiVal a > oiVal b then a else b) b = b ∨
      rs.foldl (fun b a => if oiVal a > oiVal b then a else b) b ∈ rs) ∧
    oiVal b ≤ oiVal (rs.foldl (fun b a => if oiVal a > oiVal b then a else b) b) ∧
    ∀ r ∈ rs, oiVal r ≤ oiVal (rs.foldl (fun b a => if oiVal a > oiVal b then a else b) b) := by
  induction rs generalizing b with
  | nil => exact ⟨Or.inl rfl, le_refl _, by simp⟩
  | cons x xs ih =>
      simp only [List.foldl_cons]
      obtain ⟨hmem, hle, hall⟩ := ih (if oiVal x > oiVal b then x else b)
      have hbb2 : oiVal b ≤ oiVal (if oiVal x > oiVal b then x else b) := by
        split_ifs with h
        · exact le_of_lt h
        · exact le_refl _
      have hxb2 : oiVal x ≤ oiVal (if oiVal x > oiVal b then x else b) := by
        split_ifs with h
        · exact le_refl _
        · exact le_of_not_lt h
      refine ⟨?_, le_trans hbb2 hle, ?_⟩
      · rcases hmem with h | h
        · rw [h]
          split_ifs with hx
          · exact Or.inr (List.mem_cons_self x xs)
          · exact Or.inl rfl
        · exact Or.inr (List.mem_cons_of_mem x h)
      · intro r hr
        rcases List.mem_cons.mp hr with h | h
        · rw [h]; exact le_trans hxb2 hle
        · exact hall r h

lemma argmaxOI_spec (l : List OptionRow) (m : OptionRow)
    (h : argmaxOI l = some m) :
    m ∈ l ∧ ∀ r ∈ l, oiVal r ≤ oiVal m := by
  cases l with
  | nil => simp [argmaxOI] at h
  | cons x xs =>
      simp only [argmaxOI, Option.some.injEq] at h
      obtain ⟨hmem, hle, hall⟩ := foldl_max_oi xs x
      subst h
      constructor
      · rcases hmem with h | h
        · rw [h]; exact List.mem_cons_self x xs
        · exact List.mem_cons_of_mem x h
      · intro r hr
        rcases List.mem_cons.mp hr with h | h
        · rw [h]; exact hle
        · exact hall r h

lemma argmaxOI_eq_none (l : List OptionRow) (h : argmaxOI l = none) :
    l = [] := by
  cases l with
  | nil => rfl
  | cons x xs => simp [argmaxOI] at h

/-- C7: when `calculate_max_oi_buildup` succeeds, the returned distances are
`max_call_strike - spot` and `spot - max_put_strike`, each returned strike
carries a maximal OI among the valid (non-missing-OI) rows of its side, and
`determine_direction` picks CALL exactly when `call_distance < put_distance`
(so a tie yields PUT); the computation fails (returns `None`) precisely when
one side has no row with a present OI value. -/
theorem direction_selection_correct (rows : List OptionRow) (spot : ℚ) :
    (match calculate_max_oi_buildup rows spot with
      | some q =>
          q.2.2.1 = q.1 - spot ∧ q.2.2.2 = spot - q.2.1 ∧
          (∃ r ∈ callsValid rows, r.strike = q.1 ∧
            ∀ r2 ∈ callsValid rows, oiVal r2 ≤ oiVal r) ∧
          (∃ r ∈ putsValid rows, r.strike = q.2.1 ∧
            ∀ r2 ∈ putsValid rows, oiVal r2 ≤ oiVal r) ∧
          determine_direction (some q.2.2.1) (some q.2.2.2)
            = some (if q.2.2.1 < q.2.2.2 then Dir.CALL else Dir.PUT) ∧
          (q.2.2.1 = q.2.2.2 →
            determine_direction (some q.2.2.1) (some q.2.2.2) = some Dir.PUT)
      | none => True) ∧
    (calculate_max_oi_buildup rows spot = none ↔
      callsValid rows = [] ∨ putsValid rows = []) := by
  by_cases h0 : rows.isEmpty = true
  · have hres : calculate_max_oi_buildup rows spot = none := by
      simp [calculate_max_oi_buildup, h0]
    rw [hres]
    have h00 : rows = [] := List.isEmpty_iff.mp h0
    subst h00
    exact ⟨trivial, by simp [callsValid]⟩
  · by_cases h1 : ((rows.filter fun r => r.optType = OptType.CE).isEmpty
        || (rows.filter fun r => r.optType = OptType.PE).isEmpty) = true
    · have hres : calculate_max_oi_buildup rows spot = none := by
        simp only [calculate_max_oi_buildup, if_neg h0, if_pos h1]
      rw [hres]
      refine ⟨trivial, ?_⟩
      simp only [true_iff]
      have h1o : (rows.filter fun r => r.optType = OptType.CE).isEmpty = true
          ∨ (rows.filter fun r => r.optType = OptType.PE).isEmpty = true := by
        simpa using h1
      rcases h1o with h | h
      · left
        unfold callsValid
        rw [List.isEmpty_iff.mp h]
        rfl
      · right
        unfold putsValid
        rw [List.isEmpty_iff.mp h]
        rfl
    · by_cases h2 : ((callsValid rows).isEmpty
          || (putsValid rows).isEmpty) = true
      · have hres : calculate_max_oi_buildup rows spot = none := by
          simp only [calculate_max_oi_buildup, if_neg h0, if_neg h1]
          unfold callsValid putsValid at h2
          simp only [if_pos h2]
        rw [hres]
        refine ⟨trivial, ?_⟩
        simp only [true_iff]
        have h2o : (callsValid rows).isEmpty = true
            ∨ (putsValid rows).isEmpty = true := by simpa using h2
        rcases h2o with h | h
        · exact Or.inl (List.isEmpty_iff.mp h)
        · exact Or.inr (List.isEmpty_iff.mp h)
      · rcases hc : argmaxOI (callsValid rows) with - | rc
        · have : callsValid rows = [] := argmaxOI_eq_none _ hc
          rw [this] at h2
          simp at h2
        · rcases hp : argmaxOI (putsValid rows) with - | rp
          · have : putsValid rows = [] := argmaxOI_eq_none _ hp
            rw [this] at h2
            simp at h2
          · have hres : calculate_max_oi_buildup rows spot
                = some (rc.strike, rp.strike, rc.strike - spot,
                    spot - rp.strike) := by
              simp only [calculate_max_oi_buildup, if_neg h0, if_neg h1]
              unfold callsValid at h2 hc
              unfold putsValid at h2 hp
              simp only [if_neg h2, hc, hp]
            rw [hres]
            obtain ⟨hmc, hallc⟩ := argmaxOI_spec _ rc hc
            obtain ⟨hmp, hallp⟩ := argmaxOI_spec _ rp hp
            refine ⟨⟨rfl, rfl, ⟨rc, hmc, rfl, hallc⟩, ⟨rp, hmp, rfl, hallp⟩,
              rfl, ?_⟩, ?_⟩
            · intro heq
              simp only at heq
              rw [determine_direction, heq]
              simp
            · constructor
              · intro hcontra
                exact absurd hcontra (by simp)
              · intro hor
                rcases hor with h | h
                · rw [h] at hc; simp [argmaxOI] at hc
                · rw [h] at hp; simp [argmaxOI] at hp

/-! ### Claim C10 — `calculate_oi_change` baseline side effect -/

/-- C10: every successful `calculate_oi_change` call overwrites the stored
rolling baseline with the current OI, so an immediately repeated call for
the same key at the same timestamp reports a zero delta, a later call
measures against the new baseline, and the OI evaluation performed by the
OI-increase stop check inside `manage_positions` advances the same
`oi_history` that the entry unwinding signal reads. -/
theorem oi_change_baseline_side_effect (hist : List (Key × ℚ)) (key : Key)
    (c : ℚ) :
    (calculate_oi_change hist key (some c)).1.1 = some c ∧
    alookup (calculate_oi_change hist key (some c)).2 key = some c ∧
    (calculate_oi_change (calculate_oi_change hist key (some c)).2 key
      (some c)).1.2.1 = some 0 ∧
    (∀ c2 : ℚ, (calculate_oi_change (calculate_oi_change hist key
      (some c)).2 key (some c2)).1.2.1 = some (c2 - c)) ∧
    (∀ (p : Params) (pos : PosInfo) (cp : ℚ) (vw : Option ℚ),
      pos.stop_loss < cp → cp - pos.entry_price < 0 →
      vwapStopHit p cp vw = false →
      (manage_positions p pos cp vw hist key (some c)).2.2
        = (calculate_oi_change hist key (some c)).2) := by
  refine ⟨rfl, ?_, ?_, ?_, ?_⟩
  · simp [calculate_oi_change, aupdate, alookup]
  · simp [calculate_oi_change, aupdate, alookup]
  · intro c2
    simp [calculate_oi_change, aupdate, alookup]
  · intro p pos cp vw h1 h2 h3
    have hnle : ¬ cp ≤ pos.stop_loss := not_le.mpr h1
    simp only [manage_positions, if_neg hnle, h3]
    have hcond : ¬ (cp - pos.entry_price < 0 ∧ False = true) := by simp
    rw [if_neg (by simp [h3])]
    simp only [if_pos h2]
    split_ifs <;> rcases trailingPhase_kind p pos cp with hk | hk <;> simp_all

/-- C10 witness: the side-effect theorem applied at a concrete history, key
and OI values, with the `manage_positions` clause instantiated at a losing
position whose stops do not fire first. -/
theorem oi_change_baseline_side_effect_witness :
    (calculate_oi_change [] exKey (some 5)).1.1 = some 5 ∧
    alookup (calculate_oi_change [] exKey (some 5)).2 exKey = some 5 ∧
    (calculate_oi_change (calculate_oi_change [] exKey (some 5)).2 exKey
      (some 5)).1.2.1 = some 0 ∧
    (calculate_oi_change (calculate_oi_change [] exKey (some 5)).2 exKey
      (some 7)).1.2.1 = some (7 - 5) ∧
    (manage_positions defaultParams (mkPosition defaultParams 100 none) 90
      none [] exKey (some 5)).2.2 = (calculate_oi_change [] exKey
      (some 5)).2 := by
  have h := oi_change_baseline_side_effect [] exKey 5
  exact ⟨h.1, h.2.1, h.2.2.1, h.2.2.2.1 7,
    h.2.2.2.2 defaultParams (mkPosition defaultParams 100 none) 90 none
      (by norm_num [mkPosition, defaultParams]) (by norm_num [mkPosition])
      rfl⟩

/-! ### Claims C5 and C9 — new-day resets -/

lemma entryVWAPStep_reset (s : VwapState) (today : Nat) (key : Key)
    (cacheOk : Bool) (cache : List Bar) (now : Nat) (price : ℚ)
    (hday : s.cache_date ≠ some today) :
    entryVWAPStep s today key cacheOk cache now price
      = entryVWAPStep ⟨[], some today⟩ today key cacheOk cache now price := by
  simp only [entryVWAPStep]
  rw [if_pos hday,
    if_neg (show ¬ ((⟨[], some today⟩ : VwapState).cache_date ≠ some today)
      from by simp)]

lemma entryVWAPStep_uninit_short (s : VwapState) (today : Nat) (key : Key)
    (cacheOk : Bool) (cache : List Bar) (now : Nat) (price : ℚ)
    (hdate : s.cache_date = some today)
    (hlk : alookup s.totals key = none)
    (hlen : (cache.filter fun b => b.dt ≤ now).length < 2) :
    entryVWAPStep s today key cacheOk cache now price = (none, s) := by
  simp only [entryVWAPStep]
  rw [if_neg (show ¬ (s.cache_date ≠ some today) from by simp [hdate]), hlk]
  cases cacheOk
  · rfl
  · simp [hlen]

lemma entryVWAPStep_uninit_init (s : VwapState) (today : Nat) (key : Key)
    (cache : List Bar) (now : Nat) (price : ℚ)
    (hdate : s.cache_date = some today)
    (hlk : alookup s.totals key = none)
    (hlen : ¬ (cache.filter fun b => b.dt ≤ now).length < 2) :
    entryVWAPStep s today key true cache now price
      = (some (vwapValue ⟨tpSum (cache.filter fun b => b.dt ≤ now),
            volSum (cache.filter fun b => b.dt ≤ now), now⟩ price),
         ⟨aupdate s.totals key ⟨tpSum (cache.filter fun b => b.dt ≤ now),
            volSum (cache.filter fun b => b.dt ≤ now), now⟩,
          s.cache_date⟩) := by
  simp only [entryVWAPStep]
  rw [if_neg (show ¬ (s.cache_date ≠ some today) from by simp [hdate]), hlk]
  simp [hlen]

lemma entryVWAPStep_found (s : VwapState) (today : Nat) (key : Key)
    (cacheOk : Bool) (cache : List Bar) (now : Nat) (price : ℚ)
    (t : VwapTotals)
    (hdate : s.cache_date = some today)
    (hlk : alookup s.totals key = some t) :
    entryVWAPStep s today key cacheOk cache now price
      = (if t.last_update < now then
          (if 0 < (cache.filter fun b =>
              t.last_update < b.dt ∧ b.dt ≤ now).length then
            (some (vwapValue ⟨t.tpv + tpSum (cache.filter fun b =>
                t.last_update < b.dt ∧ b.dt ≤ now),
              t.volume + volSum (cache.filter fun b =>
                t.last_update < b.dt ∧ b.dt ≤ now), now⟩ price),
             ⟨aupdate s.totals key ⟨t.tpv + tpSum (cache.filter fun b =>
                t.last_update < b.dt ∧ b.dt ≤ now),
              t.volume + volSum (cache.filter fun b =>
                t.last_update < b.dt ∧ b.dt ≤ now), now⟩, s.cache_date⟩)
          else (some (vwapValue t price), s))
        else (some (vwapValue t price), s)) := by
  simp only [entryVWAPStep]
  rw [if_neg (show ¬ (s.cache_date ≠ some today) from by simp [hdate]), hlk]

/-- C5 counterexample: after the new-day reset path (`next` calls exactly
`clear_working_data` on the analyzer), the OI baseline recorded on the
previous day survives in `oi_history`: the first `calculate_oi_change` of
the new day reports a delta of `-10` against the previous day's baseline
`100` — an unwinding signal — whereas a discarded baseline would give a
delta of `0` and no signal.  A previous-day OI baseline therefore does
influence the entry signal of the new day, contradicting the claim. -/
theorem day_reset_oi_baseline_counterexample :
    (clear_working_data ⟨some [], [(exKey, 100)]⟩).working_df = none ∧
    (clear_working_data ⟨some [], [(exKey, 100)]⟩).oi_history
      = [(exKey, 100)] ∧
    (calculate_oi_change
      (clear_working_data ⟨some [], [(exKey, 100)]⟩).oi_history exKey
      (some 90)).1.2.1 = some (-10) ∧
    is_unwinding (some (-10)) = true ∧
    (calculate_oi_change [] exKey (some 90)).1.2.1 = some 0 ∧
    is_unwinding (some 0) = false := by
  refine ⟨rfl, rfl, ?_, rfl, ?_, rfl⟩
  · norm_num [calculate_oi_change, clear_working_data, alookup, aupdate]
  · norm_num [calculate_oi_change, alookup, aupdate]

/-- C5 (amended): at the first candle of a new calendar date, the VWAP
running totals are emptied before any use on the new day and the analyzer's
cached working data is cleared, but the OI rolling baselines in `oi_history`
are not discarded: they persist across days, and the first unwinding
comparison of the new day for a key is computed against the last OI recorded
for that key on a previous day. -/
theorem day_reset_state (st : AnalyzerState) (s : VwapState) (today : Nat)
    (key : Key) (cacheOk : Bool) (cache : List Bar) (now : Nat) (price : ℚ)
    (prev c : ℚ)
    (hday : s.cache_date ≠ some today)
    (hprev : alookup st.oi_history key = some prev) :
    (clear_working_data st).working_df = none ∧
    (clear_working_data st).oi_history = st.oi_history ∧
    entryVWAPStep s today key cacheOk cache now price
      = entryVWAPStep ⟨[], some today⟩ today key cacheOk cache now price ∧
    (calculate_oi_change (clear_working_data st).oi_history key
      (some c)).1.2.1 = some (c - prev) := by
  refine ⟨rfl, rfl,
    entryVWAPStep_reset s today key cacheOk cache now price hday, ?_⟩
  simp [calculate_oi_change, clear_working_data, hprev]

/-- C5 witness: the amended theorem applied at the counterexample's state. -/
theorem day_reset_state_witness :
    (clear_working_data ⟨some [], [(exKey, 100)]⟩).working_df = none ∧
    (clear_working_data ⟨some [], [(exKey, 100)]⟩).oi_history
      = [(exKey, 100)] ∧
    entryVWAPStep ⟨[(exKey, ⟨999, 9, 0⟩)], some 0⟩ 1 exKey true [] 5 7
      = entryVWAPStep ⟨[], some 1⟩ 1 exKey true [] 5 7 ∧
    (calculate_oi_change
      (clear_working_data ⟨some [], [(exKey, 100)]⟩).oi_history exKey
      (some 90)).1.2.1 = some (90 - 100) :=
  day_reset_state ⟨some [], [(exKey, 100)]⟩ ⟨[(exKey, ⟨999, 9, 0⟩)], some 0⟩
    1 exKey true [] 5 7 100 90 (by simp) (by simp [alookup])

/-- C9 counterexample: with exactly one bar of same-day history for a key,
neither the batch `calculate_vwap_for_option` nor the incremental VWAP block
(here evaluated at the first check of a new day, with stale prior-day totals
in the state) produces a value — both return `None`, which is not the bar's
typical price `(12 + 9 + 9) / 3 = 10`. -/
theorem vwap_single_bar_counterexample :
    calculate_vwap_for_option [⟨0, 12, 9, 9, 5⟩] 5 = none ∧
    (entryVWAPStep ⟨[(exKey, ⟨999, 9, 0⟩)], some 0⟩ 1 exKey true
      [⟨0, 12, 9, 9, 5⟩] 5 7).1 = none ∧
    typicalPrice ⟨0, 12, 9, 9, 5⟩ = 10 ∧
    (none : Option ℚ) ≠ some (typicalPrice ⟨0, 12, 9, 9, 5⟩) := by
  refine ⟨?_, ?_, ?_, by simp⟩
  · norm_num [calculate_vwap_for_option]
  · norm_num [entryVWAPStep, alookup, aupdate]
  · norm_num [typicalPrice]

/-- C9 (amended): at the first VWAP evaluation of a new calendar day the
accumulated totals of the prior day are discarded before use, so the result
only depends on the same-day history; but with exactly one bar of same-day
history the computation produces no VWAP value at all (both the incremental
block and the batch `calculate_vwap_for_option` require at least two bars
and return `None`), rather than the bar's typical price. -/
theorem vwap_new_day_fresh (s : VwapState) (today : Nat) (key : Key)
    (cacheOk : Bool) (cache : List Bar) (now : Nat) (price : ℚ)
    (hday : s.cache_date ≠ some today) :
    entryVWAPStep s today key cacheOk cache now price
      = entryVWAPStep ⟨[], some today⟩ today key cacheOk cache now price ∧
    ((cache.filter fun b => b.dt ≤ now).length = 1 →
      (entryVWAPStep s today key cacheOk cache now price).1 = none ∧
      calculate_vwap_for_option cache now = none) := by
  refine ⟨entryVWAPStep_reset s today key cacheOk cache now price hday, ?_⟩
  intro hlen
  rw [entryVWAPStep_reset s today key cacheOk cache now price hday]
  constructor
  · rw [entryVWAPStep_uninit_short ⟨[], some today⟩ today key cacheOk cache
      now price rfl rfl (by rw [hlen]; norm_num)]
  · simp [calculate_vwap_for_option, hlen]

/-- C9 witness: the amended theorem applied at the counterexample's input. -/
theorem vwap_new_day_fresh_witness :
    (entryVWAPStep ⟨[(exKey, ⟨999, 9, 0⟩)], some 0⟩ 1 exKey true
        [⟨0, 12, 9, 9, 5⟩] 5 7
      = entryVWAPStep ⟨[], some 1⟩ 1 exKey true [⟨0, 12, 9, 9, 5⟩] 5 7) ∧
    (([⟨0, 12, 9, 9, 5⟩] : List Bar).filter (fun b => b.dt ≤ 5)).length = 1 ∧
    (entryVWAPStep ⟨[(exKey, ⟨999, 9, 0⟩)], some 0⟩ 1 exKey true
      [⟨0, 12, 9, 9, 5⟩] 5 7).1 = none ∧
    calculate_vwap_for_option [⟨0, 12, 9, 9, 5⟩] 5 = none := by
  have h := vwap_new_day_fresh ⟨[(exKey, ⟨999, 9, 0⟩)], some 0⟩ 1 exKey true
    [⟨0, 12, 9, 9, 5⟩] 5 7 (by simp)
  have hlen : (([⟨0, 12, 9, 9, 5⟩] : List Bar).filter
      (fun b => b.dt ≤ 5)).length = 1 := by norm_num
  exact ⟨h.1, hlen, (h.2 hlen).1, (h.2 hlen).2⟩

/-! ### Claim C8 — incremental VWAP refines the batch computation -/

lemma alookup_aupdate {α β : Type} [DecidableEq α] (l : List (α × β)) (k : α)
    (v : β) : alookup (aupdate l k v) k = some v := by
  simp [alookup, aupdate]

lemma sum_filter_split (f : Bar → ℚ) (cache : List Bar) (u t : Nat)
    (hut : u ≤ t) :
    ((cache.filter fun b => b.dt ≤ t).map f).sum
      = ((cache.filter fun b => b.dt ≤ u).map f).sum
        + ((cache.filter fun b => u < b.dt ∧ b.dt ≤ t).map f).sum := by
  induction cache with
  | nil => simp
  | cons x xs ih =>
      simp only [List.filter_cons]
      rcases le_or_lt x.dt u with hxu | hxu
      · have hxt : x.dt ≤ t := le_trans hxu hut
        have hnm : ¬ u < x.dt := not_lt.mpr hxu
        simp [hxu, hxt, hnm, ih]
        ring
      · have hnu : ¬ x.dt ≤ u := not_le.mpr hxu
        rcases le_or_lt x.dt t with hxt | hxt
        · simp [hnu, hxu, hxt, ih]
          ring
        · have hnt : ¬ x.dt ≤ t := not_le.mpr hxt
          simp [hnu, hnt, ih]

lemma tpSum_filter_split (cache : List Bar) (u t : Nat) (hut : u ≤ t) :
    tpSum (cache.filter fun b => b.dt ≤ t)
      = tpSum (cache.filter fun b => b.dt ≤ u)
        + tpSum (cache.filter fun b => u < b.dt ∧ b.dt ≤ t) :=
  sum_filter_split (fun b => typicalPrice b * volumeFilled b) cache u t hut

lemma volSum_filter_split (cache : List Bar) (u t : Nat) (hut : u ≤ t) :
    volSum (cache.filter fun b => b.dt ≤ t)
      = volSum (cache.filter fun b => b.dt ≤ u)
        + volSum (cache.filter fun b => u < b.dt ∧ b.dt ≤ t) :=
  sum_filter_split volumeFilled cache u t hut

lemma length_filter_split (cache : List Bar) (u t : Nat) (hut : u ≤ t) :
    (cache.filter fun b => b.dt ≤ t).length
      = (cache.filter fun b => b.dt ≤ u).length
        + (cache.filter fun b => u < b.dt ∧ b.dt ≤ t).length := by
  induction cache with
  | nil => simp
  | cons x xs ih =>
      simp only [List.filter_cons]
      rcases le_or_lt x.dt u with hxu | hxu
      · have hxt : x.dt ≤ t := le_trans hxu hut
        have hnm : ¬ u < x.dt := not_lt.mpr hxu
        simp [hxu, hxt, hnm, ih]
        omega
      · have hnu : ¬ x.dt ≤ u := not_le.mpr hxu
        rcases le_or_lt x.dt t with hxt | hxt
        · simp [hnu, hxu, hxt, ih]
          omega
        · have hnt : ¬ x.dt ≤ t := not_le.mpr hxt
          simp [hnu, hnt, ih]

lemma volumeFilled_pos (b : Bar) (h : 0 ≤ b.volume) : 0 < volumeFilled b := by
  unfold volumeFilled
  split_ifs with h0
  · norm_num
  · exact lt_of_le_of_ne h (Ne.symm h0)

lemma volSum_nonneg (l : List Bar) (hvol : ∀ b ∈ l, 0 ≤ b.volume) :
    0 ≤ volSum l := by
  induction l with
  | nil => simp [volSum]
  | cons x xs ih =>
      have hx := volumeFilled_pos x (hvol x (List.mem_cons_self x xs))
      have hxs := ih fun b hb => hvol b (List.mem_cons_of_mem x hb)
      simp only [volSum, List.map_cons, List.sum_cons] at hxs ⊢
      linarith

lemma volSum_pos (l : List Bar) (hvol : ∀ b ∈ l, 0 ≤ b.volume)
    (hne : l ≠ []) : 0 < volSum l := by
  cases l with
  | nil => exact absurd rfl hne
  | cons x xs =>
      have hx := volumeFilled_pos x (hvol x (List.mem_cons_self x xs))
      have hxs := volSum_nonneg xs fun b hb => hvol b (List.mem_cons_of_mem x hb)
      simp only [volSum, List.map_cons, List.sum_cons] at hxs ⊢
      linarith

lemma vwapValue_of_pos (tp v : ℚ) (lu : Nat) (price : ℚ) (h : 0 < v) :
    vwapValue ⟨tp, v, lu⟩ price = tp / v := by
  simp [vwapValue, h]

lemma calculate_vwap_eq (cache : List Bar) (t : Nat)
    (hlen : ¬ (cache.filter fun b => b.dt ≤ t).length < 2)
    (hpos : 0 < volSum (cache.filter fun b => b.dt ≤ t)) :
    calculate_vwap_for_option cache t
      = some (tpSum (cache.filter fun b => b.dt ≤ t)
          / volSum (cache.filter fun b => b.dt ≤ t)) := by
  simp [calculate_vwap_for_option, hlen, hpos]

/-- Invariant threaded through a run of the incremental VWAP block: the
state is on the current day and the stored totals for the key, if any, are
exactly the batch sums of the same-day history up to some time `u` no later
than every remaining query time, with at least two bars seen. -/
def GoodVwapState (cache : List Bar) (today : Nat) (key : Key)
    (s : VwapState) (ts : List Nat) : Prop :=
  s.cache_date = some today ∧
  (alookup s.totals key = none ∨
    ∃ u, alookup s.totals key
        = some ⟨tpSum (cache.filter fun b => b.dt ≤ u),
            volSum (cache.filter fun b => b.dt ≤ u), u⟩ ∧
      2 ≤ (cache.filter fun b => b.dt ≤ u).length ∧ ∀ x ∈ ts, u ≤ x)

lemma runEntryVWAP_eq_batch (cache : List Bar) (today : Nat) (key : Key)
    (price : ℚ) (hvol : ∀ b ∈ cache, 0 ≤ b.volume) :
    ∀ ts : List Nat, List.Pairwise (fun a b => a ≤ b) ts →
      ∀ s : VwapState, GoodVwapState cache today key s ts →
      (runEntryVWAP s today key cache price ts).1
        = ts.map (calculate_vwap_for_option cache) := by
  intro ts
  induction ts with
  | nil => intro _ s _; rfl
  | cons t ts ih =>
      intro hpw s hgood
      obtain ⟨hdate, hstate⟩ := hgood
      have ht : ∀ x ∈ ts, t ≤ x := (List.pairwise_cons.mp hpw).1
      have hpw2 := (List.pairwise_cons.mp hpw).2
      have hvolf : ∀ w : Nat, ∀ b ∈ (cache.filter fun b => b.dt ≤ w),
          0 ≤ b.volume :=
        fun w b hb => hvol b (List.mem_filter.mp hb).1
      rcases hstate with hlk | ⟨u, hlk, hu2, hut⟩
      · by_cases hlen : (cache.filter fun b => b.dt ≤ t).length < 2
        · have hstep := entryVWAPStep_uninit_short s today key true cache t
            price hdate hlk hlen
          have hbatch : calculate_vwap_for_option cache t = none := by
            simp [calculate_vwap_for_option, hlen]
          simp only [runEntryVWAP, hstep, List.map_cons, hbatch]
          rw [ih hpw2 s ⟨hdate, Or.inl hlk⟩]
        · have hstep := entryVWAPStep_uninit_init s today key cache t price
            hdate hlk hlen
          have hne : (cache.filter fun b => b.dt ≤ t) ≠ [] := by
            intro hc
            rw [hc] at hlen
            simp at hlen
          have hpos := volSum_pos _ (hvolf t) hne
          have hbatch := calculate_vwap_eq cache t hlen hpos
          have hval := vwapValue_of_pos
            (tpSum (cache.filter fun b => b.dt ≤ t))
            (volSum (cache.filter fun b => b.dt ≤ t)) t price hpos
          simp only [runEntryVWAP, hstep, List.map_cons, hbatch, hval]
          congr 1
          apply ih hpw2
          refine ⟨hdate, Or.inr ⟨t, ?_, not_lt.mp hlen, ht⟩⟩
          exact alookup_aupdate s.totals key _
      · have hut1 : u ≤ t := hut t (List.mem_cons_self t ts)
        have hstep := entryVWAPStep_found s today key true cache t price _
          hdate hlk
        dsimp only at hstep
        have htp := tpSum_filter_split cache u t hut1
        have hvs := volSum_filter_split cache u t hut1
        have hlf := length_filter_split cache u t hut1
        have h2t : 2 ≤ (cache.filter fun b => b.dt ≤ t).length := by omega
        have hneT : (cache.filter fun b => b.dt ≤ t) ≠ [] := by
          intro hc
          rw [hc] at h2t
          simp at h2t
        have hposT := volSum_pos _ (hvolf t) hneT
        have hbatch := calculate_vwap_eq cache t (not_lt.mpr h2t) hposT
        have hneU : (cache.filter fun b => b.dt ≤ u) ≠ [] := by
          intro hc
          rw [hc] at hu2
          simp at hu2
        have hposU := volSum_pos _ (hvolf u) hneU
        have hgood2 : GoodVwapState cache today key s ts :=
          ⟨hdate, Or.inr ⟨u, hlk, hu2,
            fun x hx => hut x (List.mem_cons_of_mem t hx)⟩⟩
        by_cases hct : u < t
        · by_cases hmid : 0 < (cache.filter fun b =>
              u < b.dt ∧ b.dt ≤ t).length
          · have hstep2 : entryVWAPStep s today key true cache t price
                = (some (vwapValue ⟨tpSum (cache.filter fun b => b.dt ≤ t),
                    volSum (cache.filter fun b => b.dt ≤ t), t⟩ price),
                   ⟨aupdate s.totals key
                      ⟨tpSum (cache.filter fun b => b.dt ≤ t),
                       volSum (cache.filter fun b => b.dt ≤ t), t⟩,
                    s.cache_date⟩) := by
              rw [hstep, if_pos hct, if_pos hmid]
              have e1 : tpSum (cache.filter fun b => b.dt ≤ u)
                  + tpSum (cache.filter fun b => u < b.dt ∧ b.dt ≤ t)
                  = tpSum (cache.filter fun b => b.dt ≤ t) := htp.symm
              have e2 : volSum (cache.filter fun b => b.dt ≤ u)
                  + volSum (cache.filter fun b => u < b.dt ∧ b.dt ≤ t)
                  = volSum (cache.filter fun b => b.dt ≤ t) := hvs.symm
              simp only [e1, e2]
            have hval := vwapValue_of_pos
              (tpSum (cache.filter fun b => b.dt ≤ t))
              (volSum (cache.filter fun b => b.dt ≤ t)) t price hposT
            simp only [runEntryVWAP, hstep2, List.map_cons, hbatch, hval]
            congr 1
            apply ih hpw2
            refine ⟨hdate, Or.inr ⟨t, ?_, h2t, ht⟩⟩
            exact alookup_aupdate s.totals key _
          · have hmid0 : (cache.filter fun b =>
                u < b.dt ∧ b.dt ≤ t).length = 0 := by omega
            have hmidnil : (cache.filter fun b => u < b.dt ∧ b.dt ≤ t)
                = [] := List.length_eq_zero.mp hmid0
            have e1 : tpSum (cache.filter fun b => b.dt ≤ t)
                = tpSum (cache.filter fun b => b.dt ≤ u) := by
              rw [htp, hmidnil]
              simp [tpSum]
            have e2 : volSum (cache.filter fun b => b.dt ≤ t)
                = volSum (cache.filter fun b => b.dt ≤ u) := by
              rw [hvs, hmidnil]
              simp [volSum]
            have hstep2 : entryVWAPStep s today key true cache t price
                = (some (vwapValue
                    ⟨tpSum (cache.filter fun b => b.dt ≤ u),
                     volSum (cache.filter fun b => b.dt ≤ u), u⟩ price), s) := by
              rw [hstep, if_pos hct, if_neg hmid]
            have hval := vwapValue_of_pos
              (tpSum (cache.filter fun b => b.dt ≤ u))
              (volSum (cache.filter fun b => b.dt ≤ u)) u price hposU
            simp only [runEntryVWAP, hstep2, List.map_cons, hbatch, hval]
            rw [e1, e2, ih hpw2 s hgood2]
        · have hue : u = t := le_antisymm hut1 (not_lt.mp hct)
          have hstep2 : entryVWAPStep s today key true cache t price
              = (some (vwapValue
                  ⟨tpSum (cache.filter fun b => b.dt ≤ u),
                   volSum (cache.filter fun b => b.dt ≤ u), u⟩ price), s) := by
            rw [hstep, if_neg hct]
          have hval := vwapValue_of_pos
            (tpSum (cache.filter fun b => b.dt ≤ u))
            (volSum (cache.filter fun b => b.dt ≤ u)) u price hposU
          simp only [runEntryVWAP, hstep2, List.map_cons, hbatch, hval]
          rw [hue, ih hpw2 s hgood2]

/-- C8: for any same-day cache of bars for one key, any nonnegative volumes
and any nondecreasing sequence of query times, the sequence of VWAP values
produced by the incremental running-totals block (starting from the fresh
per-day state) equals, at every query time, the one-shot batch computation
`calculate_vwap_for_option` over the same bars — i.e. the sum of
`typical_price * volume` (volume 0 replaced by 1) divided by the sum of
volumes over the bars at or before that time. -/
theorem vwap_incremental_eq_batch (cache : List Bar) (today : Nat)
    (key : Key) (price : ℚ) (ts : List Nat)
    (hts : List.Pairwise (fun a b => a ≤ b) ts)
    (hvol : ∀ b ∈ cache, 0 ≤ b.volume) :
    (runEntryVWAP ⟨[], some today⟩ today key cache price ts).1
      = ts.map (calculate_vwap_for_option cache) :=
  runEntryVWAP_eq_batch cache today key price hvol ts hts ⟨[], some today⟩
    ⟨rfl, Or.inl rfl⟩

/-- Concrete two-bar cache used to witness the VWAP refinement. -/
def cacheEx : List Bar :=
  [⟨1, 10, 8, 9, 4⟩, ⟨2, 12, 10, 11, 6⟩, ⟨3, 14, 12, 13, 0⟩]

/-- C8 witness: the refinement theorem applied to a concrete three-bar day
(including a zero-volume bar) queried at three increasing times. -/
theorem vwap_incremental_eq_batch_witness :
    (runEntryVWAP ⟨[], some 7⟩ 7 exKey cacheEx 5 [2, 2, 3]).1
      = [2, 2, 3].map (calculate_vwap_for_option cacheEx) :=
  vwap_incremental_eq_batch cacheEx 7 exKey 5 [2, 2, 3]
    (by norm_num)
    (by
      intro b hb
      simp only [cacheEx, List.mem_cons, List.not_mem_nil, or_false] at hb
      rcases hb with hb | hb | hb <;> rw [hb] <;> norm_num)

end OIStrat
